import Mathlib

/-!
# Verification of the quicktag scanner (crates/quicktag/src/scanner.rs)

Shallow embedding of the package tag-scanning and reference-cache engine:
the entry scanner (`scan_file`), the reference-graph transformer
(`transform_tag_cache`), the cache store/load round trip, and the
status-reporting control flow of `load_tag_cache`.

Machine integers (`u32`, `u64`) are embedded as `Nat`; byte buffers as
`List Nat` (each element a byte value).  The Rust `IntMap` hash maps are
embedded as association lists; their iteration order is unspecified in the
source, and every property proved below is insensitive to it (membership,
counts, per-key lookups).

External collaborators (the `destiny_pkg` crate's `TagHash::is_pkg_file`
validity predicate, the package manager's `hash64_table`, the
`TagHash::new` identifier synthesis) are not part of this repository's
sources; they enter the embedding as explicit function parameters.
-/

namespace Quicktag

/-- Embeds `ScannedHash<T>` (scanner.rs:31-35): a matched value together with
the byte offset inside the scanned entry at which it was found.  The hash
types `TagHash`/`TagHash64`/`u32` are all numeric newtypes and are embedded
uniformly as `Nat`. -/
structure ScannedHash where
  offset : Nat
  hash : Nat
deriving DecidableEq, Repr

/-- Embeds `ScanResult` (scanner.rs:21-29): the three per-entry match lists
plus the reference list populated by the transform phase. -/
structure ScanResult where
  file_hashes : List ScannedHash
  file_hashes64 : List ScannedHash
  string_hashes : List ScannedHash
  references : List Nat
deriving DecidableEq, Repr

/-- `ScanResult::default()`: all four lists empty. -/
def ScanResult.default : ScanResult := ⟨[], [], [], []⟩

instance : Inhabited ScanResult := ⟨ScanResult.default⟩

/-- Embeds `ScannerContext` (scanner.rs:15-19): the read-only Hash Universe.
The `IntSet`s become lists used only through membership. -/
structure ScannerContext where
  valid_file_hashes : List Nat
  valid_file_hashes64 : List Nat
  known_string_hashes : List Nat

/-- Little-endian value of the `k` bytes of `data` starting at offset `off`
(embeds `u32::from_le_bytes` / `u64::from_le_bytes` applied to an exact
chunk; callers only read windows that lie fully inside the buffer). -/
def leBytesAt (data : List Nat) (off : Nat) : Nat → Nat
  | 0 => 0
  | k + 1 => data.getD off 0 + 256 * leBytesAt data (off + 1) k

/-- One scan pass of `scan_file`: iterate the buffer in non-overlapping
`stride`-byte windows (`data.chunks_exact(stride).enumerate()` visits exactly
the windows `[i*stride, i*stride+stride)` for `i < data.length / stride`),
interpret each window as a little-endian value, and record those values
satisfying the pass's predicate, in window order. -/
def scanPass (stride : Nat) (p : Nat → Prop) [DecidablePred p] (data : List Nat) :
    List ScannedHash :=
  (List.range (data.length / stride)).filterMap (fun i =>
    let value := leBytesAt data (i * stride) stride
    if p value then some ⟨i * stride, value⟩ else none)

/-- Embeds `scan_file` (scanner.rs:44-102).  The source's single 4-byte loop
pushes into `file_hashes` and `string_hashes` independently (two separate
conditions over the same windows), so the two lists are each a `scanPass`
over stride 4; the 8-byte loop is a `scanPass` over stride 8.  The
`is_pkg_file` structural-validity predicate of `TagHash` lives in the
external `destiny_pkg` crate and is passed in explicitly.  `references`
is never touched by the scanner and stays empty. -/
def scan_file (is_pkg_file : Nat → Bool) (context : ScannerContext) (data : List Nat) :
    ScanResult :=
  { file_hashes := scanPass 4
      (fun value => is_pkg_file value = true ∧ value ∈ context.valid_file_hashes) data
    file_hashes64 := scanPass 8
      (fun value => value ∈ context.valid_file_hashes64) data
    string_hashes := scanPass 4
      (fun value => value = 0x811c9dc5 ∨ value ∈ context.known_string_hashes) data
    references := [] }

/-! ## Reference-graph transform (scanner.rs:276-323)

The Rust `TagCache` is `IntMap<TagHash, ScanResult>`; the transform's input is
keyed by the raw `u32`.  Both are embedded as an association list keyed by
`Nat`.  Hash-map iteration order is unspecified in the source and every
property proved below is order-insensitive. -/

abbrev TagCache := List (Nat × ScanResult)

/-- The `direct_reference_cache.entry(key)` update of scanner.rs:286-293 and
298-305: push `v` onto the existing vector when the entry is occupied, insert
a fresh one-element vector when it is vacant. -/
def drcPush (m : List (Nat × List Nat)) (key v : Nat) : List (Nat × List Nat) :=
  match m with
  | [] => [(key, [v])]
  | (k, l) :: rest =>
    if k = key then (k, l ++ [v]) :: rest else (k, l) :: drcPush rest key v

/-- Pass-1 contribution of one flat-cache entry `(k2, v2)` (scanner.rs:284-308):
every 32-bit Identifier match pushes the referencer `k2` under the matched
hash; every Extended-Identifier match that resolves through the external
`hash64_table` pushes `k2` under the resolved 32-bit hash; unresolvable
64-bit matches contribute nothing. -/
def gatherEntry (hash64_table : Nat → Option Nat) (k2 : Nat) (v2 : ScanResult)
    (m : List (Nat × List Nat)) : List (Nat × List Nat) :=
  let m1 := v2.file_hashes.foldl (fun m t32 => drcPush m t32.hash k2) m
  v2.file_hashes64.foldl (fun m t64 =>
    match hash64_table t64.hash with
    | some t32 => drcPush m t32 k2
    | none => m) m1

/-- Pass 1 (gather): the reverse-adjacency map `direct_reference_cache`,
built by folding `gatherEntry` over every entry of the flat cache. -/
def gatherReferences (hash64_table : Nat → Option Nat) (cache : TagCache) :
    List (Nat × List Nat) :=
  cache.foldl (fun m p => gatherEntry hash64_table p.1 p.2 m) []

/-- Embeds `transform_tag_cache` (scanner.rs:276-323).  Pass 2
(scanner.rs:312-320): for every entry of the flat cache, set its reference
list to the reverse-adjacency map's entry for its own key when present,
otherwise leave the entry's reference list as it was. -/
def transform_tag_cache (hash64_table : Nat → Option Nat) (cache : TagCache) : TagCache :=
  let direct_reference_cache := gatherReferences hash64_table cache
  cache.map (fun p =>
    (p.1, { p.2 with references :=
        match direct_reference_cache.lookup p.1 with
        | some refs => refs
        | none => p.2.references }))

/-- Number of reference sites for `y` inside the scan result `v`: 32-bit
Identifier matches equal to `y` plus Extended-Identifier matches resolving
to `y`. -/
def countRefs (hash64_table : Nat → Option Nat) (v : ScanResult) (y : Nat) : Nat :=
  v.file_hashes.countP (fun t => t.hash == y) +
  v.file_hashes64.countP (fun t => hash64_table t.hash == some y)

/-- The reference list the transform assembles for key `y`, expressed
structurally: each cache entry `(k2, v2)` contributes `k2` once per
reference site for `y` in `v2`, in cache order. -/
def refsJoin (hash64_table : Nat → Option Nat) (cache : TagCache) (y : Nat) : List Nat :=
  (cache.map (fun p => List.replicate (countRefs hash64_table p.2 y) p.1)).flatten

/-- `v`'s forward scan contains a match equal to `x` — directly through a
32-bit Identifier match, or through an Extended-Identifier match that
resolves to `x`. -/
def scanContains (hash64_table : Nat → Option Nat) (v : ScanResult) (x : Nat) : Prop :=
  (∃ t ∈ v.file_hashes, t.hash = x) ∨ (∃ t ∈ v.file_hashes64, hash64_table t.hash = some x)

instance (hash64_table : Nat → Option Nat) (v : ScanResult) (x : Nat) :
    Decidable (scanContains hash64_table v x) := by
  unfold scanContains; infer_instance

/-- A flat cache: every reference list is still empty (the state in which the
Parallel Package Walker hands the cache to the transform). -/
def FlatCache (cache : TagCache) : Prop := ∀ p ∈ cache, p.2.references = []

instance (cache : TagCache) : Decidable (FlatCache cache) := by
  unfold FlatCache; infer_instance

/-- Concrete scanner context used to instantiate hypothesis-bearing theorems. -/
def ctxW : ScannerContext := ⟨[1], [5], []⟩

/-- Concrete structural-validity predicate (accepts everything). -/
def ipfW : Nat → Bool := fun _ => true

/-- An Extended-Identifier table resolving nothing, for concrete instances. -/
def h64none : Nat → Option Nat := fun _ => none

/-- Concrete flat cache: entry 1 scans a match for Identifier 2; entry 2
scans nothing. -/
def cacheC1 : TagCache := [(1, ⟨[⟨0, 2⟩], [], [], []⟩), (2, ScanResult.default)]

/-- Concrete flat cache with a self-reference: entry 1 scans a match for its
own Identifier. -/
def cacheSelf : TagCache := [(1, ⟨[⟨0, 1⟩], [], [], []⟩)]

/-- Concrete flat cache of the spec's example: entry A (Identifier 1) and
entry B (Identifier 3) each scan one match for Identifier 2. -/
def cacheAB : TagCache :=
  [(1, ⟨[⟨0, 2⟩], [], [], []⟩), (3, ⟨[⟨16, 2⟩], [], [], []⟩), (2, ScanResult.default)]

/-! ## Cache store / load (scanner.rs:177-273)

`load_tag_cache` persists the enriched cache with
`zstd::Encoder(...).write_all(&bincode::serialize(&cache))` and reloads it
with `bincode::deserialize_from(zstd::Decoder(...))`.  Both crates are
external to this repository, so the byte format below is modelled from the
spec rather than translated from source. -/

/-- Modelled from the spec: the external `bincode` crate's default encoding of
a `k`-byte unsigned integer — exactly `k` bytes, little-endian. -/
def encLE : Nat → Nat → List Nat
  | 0, _ => []
  | k + 1, n => n % 256 :: encLE k (n / 256)

/-- Parse a `k`-byte little-endian unsigned integer; fails when fewer than
`k` bytes remain. -/
def parseLE : Nat → List Nat → Option (Nat × List Nat)
  | 0, bs => some (0, bs)
  | _ + 1, [] => none
  | k + 1, b :: bs =>
    match parseLE k bs with
    | some (n, rest) => some (b + 256 * n, rest)
    | none => none

/-- Modelled from the spec: one serialized `ScannedHash` — the `u64` offset
followed by the `w`-byte hash (`w = 4` for `TagHash`/`u32`, `w = 8` for
`TagHash64`). -/
def encScannedHash (w : Nat) (t : ScannedHash) : List Nat :=
  encLE 8 t.offset ++ encLE w t.hash

def parseScannedHash (w : Nat) (bs : List Nat) : Option (ScannedHash × List Nat) :=
  match parseLE 8 bs with
  | some (off, bs1) =>
    match parseLE w bs1 with
    | some (h, bs2) => some (⟨off, h⟩, bs2)
    | none => none
  | none => none

/-- Modelled from the spec: a `bincode` sequence — a `u64` element count
followed by the elements back to back. -/
def encList {α : Type} (enc : α → List Nat) (l : List α) : List Nat :=
  encLE 8 l.length ++ (l.map enc).flatten

/-- Parse exactly `k` consecutive elements, threading the unconsumed tail. -/
def parseCount {α : Type} (parseElem : List Nat → Option (α × List Nat)) :
    Nat → List Nat → Option (List α × List Nat)
  | 0, bs => some ([], bs)
  | k + 1, bs =>
    match parseElem bs with
    | some (a, bs1) =>
      match parseCount parseElem k bs1 with
      | some (l, bs2) => some (a :: l, bs2)
      | none => none
    | none => none

def parseList {α : Type} (parseElem : List Nat → Option (α × List Nat))
    (bs : List Nat) : Option (List α × List Nat) :=
  match parseLE 8 bs with
  | some (n, bs1) => parseCount parseElem n bs1
  | none => none

/-- Modelled from the spec: the serialized `ScanResult` — its four vectors in
declaration order. -/
def encScanResult (v : ScanResult) : List Nat :=
  encList (encScannedHash 4) v.file_hashes ++
  encList (encScannedHash 8) v.file_hashes64 ++
  encList (encScannedHash 4) v.string_hashes ++
  encList (encLE 4) v.references

def parseScanResult (bs : List Nat) : Option (ScanResult × List Nat) :=
  match parseList (parseScannedHash 4) bs with
  | some (fh, bs1) =>
    match parseList (parseScannedHash 8) bs1 with
    | some (fh64, bs2) =>
      match parseList (parseScannedHash 4) bs2 with
      | some (sh, bs3) =>
        match parseList (parseLE 4) bs3 with
        | some (refs, bs4) => some (⟨fh, fh64, sh, refs⟩, bs4)
        | none => none
      | none => none
    | none => none
  | none => none

def encEntry (p : Nat × ScanResult) : List Nat :=
  encLE 4 p.1 ++ encScanResult p.2

def parseEntry (bs : List Nat) : Option ((Nat × ScanResult) × List Nat) :=
  match parseLE 4 bs with
  | some (k, bs1) =>
    match parseScanResult bs1 with
    | some (v, bs2) => some ((k, v), bs2)
    | none => none
  | none => none

/-- Modelled from the spec: the external `zstd` crate is a general-purpose
lossless compressor; its whole contract here is that decompression inverts
compression, so the byte stream it produces is modelled as the stream
itself. -/
def zstdCompress (bs : List Nat) : List Nat := bs

def zstdDecompress (bs : List Nat) : List Nat := bs

/-- The stored form of a cache: bincode serialization of the map (entry count
then entries) wrapped in zstd compression — the write path of
scanner.rs:265-269. -/
def store_tag_cache_bytes (cache : TagCache) : List Nat :=
  zstdCompress (encList encEntry cache)

/-- Reading the stored form back: decompress, then deserialize — the read
path of scanner.rs:182-184.  `bincode::deserialize_from` reads from a
stream, so trailing bytes are not an error. -/
def load_tag_cache_bytes (bs : List Nat) : Option TagCache :=
  match parseList parseEntry (zstdDecompress bs) with
  | some (cache, _) => some cache
  | none => none

/-- The numeric fields of a `ScannedHash` fit their Rust widths (`offset` a
`u64`, `hash` a `w`-byte integer). -/
def WFScannedHash (w : Nat) (t : ScannedHash) : Prop :=
  t.offset < 2 ^ 64 ∧ t.hash < 256 ^ w

/-- All numeric fields of a `ScanResult` fit their Rust widths. -/
def WFScanResult (v : ScanResult) : Prop :=
  (∀ t ∈ v.file_hashes, WFScannedHash 4 t) ∧
  (∀ t ∈ v.file_hashes64, WFScannedHash 8 t) ∧
  (∀ t ∈ v.string_hashes, WFScannedHash 4 t) ∧
  (∀ r ∈ v.references, r < 256 ^ 4) ∧
  v.file_hashes.length < 2 ^ 64 ∧ v.file_hashes64.length < 2 ^ 64 ∧
  v.string_hashes.length < 2 ^ 64 ∧ v.references.length < 2 ^ 64

/-- All numeric fields of a cache fit their Rust widths. -/
def WFTagCache (cache : TagCache) : Prop :=
  cache.length < 2 ^ 64 ∧ ∀ p ∈ cache, p.1 < 256 ^ 4 ∧ WFScanResult p.2

instance (w : Nat) (t : ScannedHash) : Decidable (WFScannedHash w t) := by
  unfold WFScannedHash; infer_instance

instance (v : ScanResult) : Decidable (WFScanResult v) := by
  unfold WFScanResult; infer_instance

instance (cache : TagCache) : Decidable (WFTagCache cache) := by
  unfold WFTagCache; infer_instance

/-! ## Scan status and the load/rebuild control flow (scanner.rs:129-273) -/

/-- Embeds `ScanStatus` (scanner.rs:129-141).  The spec names `None` "Idle",
`CreatingScanner` "CreatingContext", `TransformGathering`
"GatheringReferences" and `TransformApplying` "ApplyingReferences". -/
inductive ScanStatus where
  | None
  | CreatingScanner
  | Scanning (current_package : Nat) (total_packages : Nat)
  | TransformGathering
  | TransformApplying
  | WritingCache
  | LoadingCache
deriving DecidableEq, Repr

/-- The external world as seen by one `load_tag_cache` run.  The filesystem,
the `zstd`/`bincode` crates, the package manager and the `destiny_pkg`
package reader are outside this repository's sources; each enters as data:

* `cacheFile` — content of `cache.bin`, `none` when the file does not exist;
* `zstdOk` — whether `zstd::Decoder::new` accepts the stream;
* `package_entry_index` — per package, its id and how many entries it holds
  (drives `create_scanner_context`);
* `hash64_keys` / `hash64_table` — the 64→32-bit resolution table's keys and
  lookup;
* `tagHashNew` — `TagHash::new(pkg_id, entry_id)`;
* `is_pkg_file` — `TagHash::is_pkg_file`;
* `packages` — per package path, its id and its entries of type 8 or 16,
  each with the result of `read_entry` (`none` = read failure, skipped);
* `storeOk` — whether serializing/creating/writing `cache.bin` succeeds (the
  source unwraps these, so failure is a panic). -/
structure LoadEnv where
  cacheFile : Option (List Nat)
  zstdOk : Bool
  package_entry_index : List (Nat × Nat)
  hash64_keys : List Nat
  hash64_table : Nat → Option Nat
  tagHashNew : Nat → Nat → Nat
  is_pkg_file : Nat → Bool
  packages : List (Nat × List (Nat × Option (List Nat)))
  storeOk : Bool

/-- Embeds `create_scanner_context` (scanner.rs:104-127): enumerate every
package's entry indices and synthesize the corresponding Identifiers; the
64-bit set is the resolution table's key set; the known-string-hash set is
`Default::default()`. -/
def create_scanner_context (env : LoadEnv) : ScannerContext :=
  { valid_file_hashes :=
      (env.package_entry_index.map
        (fun p => (List.range p.2).map (env.tagHashNew p.1))).flatten
    valid_file_hashes64 := env.hash64_keys
    known_string_hashes := [] }

/-- Embeds the per-package body of the parallel walk (scanner.rs:229-256):
sort the typed entries by entry index, then scan each readable entry,
keying the result by the synthesized Identifier; unreadable entries are
skipped. -/
def scanPackage (env : LoadEnv) (context : ScannerContext)
    (pkg : Nat × List (Nat × Option (List Nat))) : TagCache :=
  let all_tags := pkg.2.mergeSort (fun a b => a.1 ≤ b.1)
  all_tags.foldl (fun results t =>
    match t.2 with
    | some data =>
        results ++ [(env.tagHashNew pkg.1 t.1, scan_file env.is_pkg_file context data)]
    | none => results) []

/-- The rebuild path of `load_tag_cache` (scanner.rs:195-272), returning the
sequence of statuses written to `SCANNER_PROGRESS` (appended to the writes
already performed, `trace`) and the produced cache — `none` models the
panic of the unwrapped serialize/create/write calls when the store fails,
which leaves `WritingCache` as the last recorded status.  The per-package
`Scanning` writes happen in the parallel workers; their interleaving is
modelled in worker-completion order. -/
def rebuild_tag_cache (env : LoadEnv) (trace : List ScanStatus) :
    List ScanStatus × Option TagCache :=
  let context := create_scanner_context env
  let n := env.packages.length
  let flat := (env.packages.map (scanPackage env context)).flatten
  let cache := transform_tag_cache env.hash64_table flat
  (trace ++ [ScanStatus.CreatingScanner] ++
      (List.range n).map (fun i => ScanStatus.Scanning (i + 1) n) ++
      [ScanStatus.TransformGathering, ScanStatus.TransformApplying,
        ScanStatus.WritingCache] ++
      (if env.storeOk then [ScanStatus.None] else []),
    if env.storeOk then some cache else none)

/-- Embeds `load_tag_cache` (scanner.rs:177-273): when `cache.bin` opens,
record `LoadingCache` and try to decompress and deserialize it; a success
records `None` and returns the cache; a decoder or deserialization failure
falls through to the rebuild, as does a missing file (with no `LoadingCache`
write). -/
def load_tag_cache (env : LoadEnv) : List ScanStatus × Option TagCache :=
  match env.cacheFile with
  | some bytes =>
    if env.zstdOk then
      match load_tag_cache_bytes bytes with
      | some cache => ([ScanStatus.LoadingCache, ScanStatus.None], some cache)
      | none => rebuild_tag_cache env [ScanStatus.LoadingCache]
    else rebuild_tag_cache env [ScanStatus.LoadingCache]
  | none => rebuild_tag_cache env []

/-- A concrete environment with no cache file and a successful store. -/
def envOk : LoadEnv :=
  { cacheFile := none, zstdOk := true, package_entry_index := [], hash64_keys := [],
    hash64_table := fun _ => none, tagHashNew := fun p e => p * 65536 + e,
    is_pkg_file := fun _ => true, packages := [], storeOk := true }

/-- A concrete environment whose store fails (`File::create`/`write_all`
unwraps panic). -/
def envStoreFail : LoadEnv :=
  { cacheFile := none, zstdOk := true, package_entry_index := [], hash64_keys := [],
    hash64_table := fun _ => none, tagHashNew := fun p e => p * 65536 + e,
    is_pkg_file := fun _ => true, packages := [], storeOk := false }

/-! ## Characterization of a scan pass -/

theorem scan_file_file_hashes (ipf : Nat → Bool) (ctx : ScannerContext) (data : List Nat) :
    (scan_file ipf ctx data).file_hashes =
      scanPass 4 (fun value => ipf value = true ∧ value ∈ ctx.valid_file_hashes) data := rfl

theorem scan_file_string_hashes (ipf : Nat → Bool) (ctx : ScannerContext) (data : List Nat) :
    (scan_file ipf ctx data).string_hashes =
      scanPass 4 (fun value => value = 0x811c9dc5 ∨ value ∈ ctx.known_string_hashes) data := rfl

theorem scan_file_file_hashes64 (ipf : Nat → Bool) (ctx : ScannerContext) (data : List Nat) :
    (scan_file ipf ctx data).file_hashes64 =
      scanPass 8 (fun value => value ∈ ctx.valid_file_hashes64) data := rfl

theorem scanPass_mem (stride : Nat) (hs : 0 < stride) (p : Nat → Prop) [DecidablePred p]
    (data : List Nat) (o h : Nat) :
    ScannedHash.mk o h ∈ scanPass stride p data ↔
      stride ∣ o ∧ o + stride ≤ data.length ∧ h = leBytesAt data o stride ∧ p h := by
  unfold scanPass
  rw [List.mem_filterMap]
  constructor
  · rintro ⟨i, hi, hf⟩
    rw [List.mem_range] at hi
    by_cases hp : p (leBytesAt data (i * stride) stride)
    · simp only [if_pos hp, Option.some.injEq, ScannedHash.mk.injEq] at hf
      obtain ⟨ho, hh⟩ := hf
      subst ho; subst hh
      refine ⟨dvd_mul_left stride i, ?_, rfl, hp⟩
      have h1 : i + 1 ≤ data.length / stride := hi
      have h2 : (i + 1) * stride ≤ data.length := by
        rw [Nat.le_div_iff_mul_le hs] at h1
        exact h1
      calc i * stride + stride = (i + 1) * stride := by ring
        _ ≤ data.length := h2
    · rw [if_neg hp] at hf
      cases hf
  · rintro ⟨⟨c, hc⟩, hlen, hh, hp⟩
    refine ⟨c, ?_, ?_⟩
    · rw [List.mem_range]
      have h2 : (c + 1) * stride ≤ data.length := by
        have : c * stride + stride ≤ data.length := by
          rw [Nat.mul_comm c stride, ← hc]
          exact hlen
        calc (c + 1) * stride = c * stride + stride := by ring
          _ ≤ data.length := this
      have := (Nat.le_div_iff_mul_le hs).mpr h2
      omega
    · have hco : c * stride = o := by rw [Nat.mul_comm]; exact hc.symm
      rw [hco, ← hh]
      subst hh
      rw [if_pos hp]

theorem window_filterMap_pairwise (stride : Nat) (hs : 0 < stride) (p : Nat → Prop)
    [DecidablePred p] (data : List Nat) (l : List Nat) (hl : l.Pairwise (· < ·)) :
    (l.filterMap (fun i =>
        let value := leBytesAt data (i * stride) stride
        if p value then some (ScannedHash.mk (i * stride) value) else none)).Pairwise
      (fun a b => a.offset < b.offset) := by
  induction l with
  | nil => simp
  | cons x xs ih =>
    rw [List.pairwise_cons] at hl
    obtain ⟨hx, hxs⟩ := hl
    rw [List.filterMap_cons]
    by_cases hp : p (leBytesAt data (x * stride) stride)
    · simp only [if_pos hp]
      rw [List.pairwise_cons]
      refine ⟨?_, ih hxs⟩
      intro a ha
      rw [List.mem_filterMap] at ha
      obtain ⟨j, hj, hfj⟩ := ha
      by_cases hpj : p (leBytesAt data (j * stride) stride)
      · simp only [if_pos hpj, Option.some.injEq] at hfj
        have haj : a.offset = j * stride := by rw [← hfj]
        rw [haj]
        show x * stride < j * stride
        exact (Nat.mul_lt_mul_right hs).mpr (hx j hj)
      · rw [if_neg hpj] at hfj
        cases hfj
    · simp only [if_neg hp]
      exact ih hxs

/-- Offsets recorded by a scan pass are strictly increasing (window order). -/
theorem scanPass_sorted (stride : Nat) (hs : 0 < stride) (p : Nat → Prop) [DecidablePred p]
    (data : List Nat) :
    (scanPass stride p data).Pairwise (fun a b => a.offset < b.offset) :=
  window_filterMap_pairwise stride hs p data _ (List.pairwise_lt_range _)

/-- C4: the Entry Scanner records a 4-aligned in-bounds window's little-endian
32-bit value as an Identifier match iff it is structurally valid and in the
context's Identifier set; independently as a string-hash match iff it equals
the empty-string sentinel `0x811c9dc5` or is a known string hash; an 8-aligned
in-bounds window's 64-bit value as an Extended-Identifier match iff it is in
the context's Extended-Identifier set; and the returned reference list is
empty. -/
theorem scan_file_characterization (ipf : Nat → Bool) (ctx : ScannerContext)
    (data : List Nat) :
    (∀ o h, ScannedHash.mk o h ∈ (scan_file ipf ctx data).file_hashes ↔
      (4 ∣ o ∧ o + 4 ≤ data.length ∧ h = leBytesAt data o 4 ∧
        ipf h = true ∧ h ∈ ctx.valid_file_hashes)) ∧
    (∀ o h, ScannedHash.mk o h ∈ (scan_file ipf ctx data).string_hashes ↔
      (4 ∣ o ∧ o + 4 ≤ data.length ∧ h = leBytesAt data o 4 ∧
        (h = 0x811c9dc5 ∨ h ∈ ctx.known_string_hashes))) ∧
    (∀ o h, ScannedHash.mk o h ∈ (scan_file ipf ctx data).file_hashes64 ↔
      (8 ∣ o ∧ o + 8 ≤ data.length ∧ h = leBytesAt data o 8 ∧
        h ∈ ctx.valid_file_hashes64)) ∧
    (scan_file ipf ctx data).references = [] := by
  refine ⟨fun o h => ?_, fun o h => ?_, fun o h => ?_, rfl⟩
  · rw [scan_file_file_hashes]
    exact scanPass_mem 4 (by norm_num) _ data o h
  · rw [scan_file_string_hashes]
    exact scanPass_mem 4 (by norm_num) _ data o h
  · rw [scan_file_file_hashes64]
    exact scanPass_mem 8 (by norm_num) _ data o h

/-- C5: every recorded Identifier / string-hash match offset is a multiple of 4
with the full 4-byte window inside the buffer, and every recorded
Extended-Identifier match offset is a multiple of 8 with the full 8-byte
window inside the buffer — even when the buffer length is not a multiple of
the stride (trailing partial windows produce no match). -/
theorem scan_file_offsets_in_bounds (ipf : Nat → Bool) (ctx : ScannerContext)
    (data : List Nat) :
    (∀ m ∈ (scan_file ipf ctx data).file_hashes,
        4 ∣ m.offset ∧ m.offset + 4 ≤ data.length) ∧
    (∀ m ∈ (scan_file ipf ctx data).string_hashes,
        4 ∣ m.offset ∧ m.offset + 4 ≤ data.length) ∧
    (∀ m ∈ (scan_file ipf ctx data).file_hashes64,
        8 ∣ m.offset ∧ m.offset + 8 ≤ data.length) := by
  refine ⟨?_, ?_, ?_⟩ <;> rintro ⟨o, h⟩ hm
  · rw [scan_file_file_hashes] at hm
    have := (scanPass_mem 4 (by norm_num) _ data o h).mp hm
    exact ⟨this.1, this.2.1⟩
  · rw [scan_file_string_hashes] at hm
    have := (scanPass_mem 4 (by norm_num) _ data o h).mp hm
    exact ⟨this.1, this.2.1⟩
  · rw [scan_file_file_hashes64] at hm
    have := (scanPass_mem 8 (by norm_num) _ data o h).mp hm
    exact ⟨this.1, this.2.1⟩

/-- Witness for C5 at a concrete 5-byte buffer (length not a multiple of 4):
the single recorded match sits at offset 0 with its window in bounds. -/
theorem scan_file_offsets_in_bounds_witness :
    ScannedHash.mk 0 1 ∈ (scan_file ipfW ctxW [1, 0, 0, 0, 9]).file_hashes ∧
    (4 ∣ (ScannedHash.mk 0 1).offset ∧
      (ScannedHash.mk 0 1).offset + 4 ≤ ([1, 0, 0, 0, 9] : List Nat).length) :=
  ⟨by decide,
   (scan_file_offsets_in_bounds ipfW ctxW [1, 0, 0, 0, 9]).1
     (ScannedHash.mk 0 1) (by decide)⟩

/-! ## Lemmas about the reverse-adjacency map -/

theorem lookup_cons_if {β : Type} (a k : Nat) (b : β) (es : List (Nat × β)) :
    List.lookup a ((k, b) :: es) = if a = k then some b else List.lookup a es := by
  by_cases h : a = k
  · have hb : (a == k) = true := beq_iff_eq.mpr h
    rw [List.lookup_cons, hb, if_pos h]
  · have hb : (a == k) = false := by simp [h]
    rw [List.lookup_cons, hb, if_neg h]

theorem mem_of_lookup_eq_some {β : Type} {l : List (Nat × β)} {y : Nat} {v : β}
    (h : l.lookup y = some v) : (y, v) ∈ l := by
  induction l with
  | nil => cases h
  | cons p rest ih =>
    obtain ⟨k, b⟩ := p
    rw [lookup_cons_if] at h
    by_cases hk : y = k
    · rw [if_pos hk] at h
      obtain rfl := Option.some.inj h
      subst hk
      exact List.mem_cons_self _ _
    · rw [if_neg hk] at h
      exact List.mem_cons_of_mem _ (ih h)

theorem lookup_eq_some_of_mem_nodup {β : Type} {l : List (Nat × β)}
    (hnd : (l.map Prod.fst).Nodup) {y : Nat} {v : β} (h : (y, v) ∈ l) :
    l.lookup y = some v := by
  induction l with
  | nil => cases h
  | cons p rest ih =>
    obtain ⟨k, b⟩ := p
    rw [List.map_cons, List.nodup_cons] at hnd
    rw [lookup_cons_if]
    rcases List.mem_cons.mp h with heq | hmem
    · obtain ⟨rfl, rfl⟩ := Prod.mk.inj heq
      rw [if_pos rfl]
    · have hky : y ≠ k := by
        intro hc
        have hy : y ∈ rest.map Prod.fst := List.mem_map.mpr ⟨(y, v), hmem, rfl⟩
        rw [hc] at hy
        exact hnd.1 hy
      rw [if_neg hky]
      exact ih hnd.2 hmem

theorem lookup_drcPush (m : List (Nat × List Nat)) (key v y : Nat) :
    (drcPush m key v).lookup y =
      if y = key then some (((m.lookup key).getD []) ++ [v]) else m.lookup y := by
  induction m with
  | nil =>
    by_cases h : y = key <;> simp [drcPush, lookup_cons_if, h]
  | cons p rest ih =>
    obtain ⟨k, l⟩ := p
    by_cases hk : k = key
    · subst hk
      rw [drcPush, if_pos rfl]
      by_cases h : y = k
      · subst h
        rw [lookup_cons_if, if_pos rfl, if_pos rfl, lookup_cons_if, if_pos rfl]
        simp
      · rw [lookup_cons_if, if_neg h, if_neg h, lookup_cons_if, if_neg h]
    · rw [drcPush, if_neg hk]
      by_cases h : y = k
      · subst h
        have hyk : ¬ y = key := fun hc => hk (hc ▸ rfl)
        rw [lookup_cons_if, if_pos rfl, if_neg hyk, lookup_cons_if, if_pos rfl]
      · rw [lookup_cons_if, if_neg h, ih]
        by_cases h2 : y = key
        · rw [if_pos h2, if_pos h2]
          have hkk : ¬ key = k := fun hc => hk hc.symm
          rw [lookup_cons_if, if_neg hkk]
        · rw [if_neg h2, if_neg h2, lookup_cons_if, if_neg h]

/-- Folding the 32-bit matches of one entry into the map appends the
referencer `k2` under key `y` once per match equal to `y`. -/
theorem lookupD_fold32 (k2 y : Nat) (ts : List ScannedHash)
    (m : List (Nat × List Nat)) :
    ((ts.foldl (fun m t32 => drcPush m t32.hash k2) m).lookup y).getD [] =
      ((m.lookup y).getD []) ++ List.replicate (ts.countP (fun t => t.hash == y)) k2 := by
  induction ts generalizing m with
  | nil => simp
  | cons t ts ih =>
    rw [List.foldl_cons, ih, lookup_drcPush, List.countP_cons]
    by_cases h : t.hash = y
    · have hb : (t.hash == y) = true := beq_iff_eq.mpr h
      rw [if_pos h.symm, hb, h]
      simp [List.replicate_succ, List.append_assoc]
    · have hb : (t.hash == y) = false := by simp [h]
      have hyt : ¬ y = t.hash := fun hc => h hc.symm
      rw [if_neg hyt, hb]
      simp

/-- Folding the 64-bit matches of one entry into the map appends the
referencer `k2` under key `y` once per match resolving to `y`. -/
theorem lookupD_fold64 (hash64_table : Nat → Option Nat) (k2 y : Nat)
    (ts : List ScannedHash) (m : List (Nat × List Nat)) :
    ((ts.foldl (fun m t64 =>
        match hash64_table t64.hash with
        | some t32 => drcPush m t32 k2
        | none => m) m).lookup y).getD [] =
      ((m.lookup y).getD []) ++
        List.replicate (ts.countP (fun t => hash64_table t.hash == some y)) k2 := by
  induction ts generalizing m with
  | nil => simp
  | cons t ts ih =>
    rw [List.foldl_cons, List.countP_cons]
    cases ht : hash64_table t.hash with
    | none =>
      simp only [ih]
      simp
    | some t32 =>
      by_cases h : t32 = y
      · subst h
        simp only [ih, lookup_drcPush, if_pos rfl]
        simp [List.replicate_succ, List.append_assoc]
      · have hyt : ¬ y = t32 := fun hc => h hc.symm
        simp only [ih, lookup_drcPush, if_neg hyt]
        simp [h]

theorem lookupD_gatherEntry (hash64_table : Nat → Option Nat) (k2 y : Nat)
    (v2 : ScanResult) (m : List (Nat × List Nat)) :
    ((gatherEntry hash64_table k2 v2 m).lookup y).getD [] =
      ((m.lookup y).getD []) ++ List.replicate (countRefs hash64_table v2 y) k2 := by
  rw [gatherEntry, countRefs]
  rw [lookupD_fold64, lookupD_fold32, List.append_assoc, ← List.replicate_add]

theorem lookupD_gatherReferences_aux (hash64_table : Nat → Option Nat)
    (cache : TagCache) (y : Nat) (m : List (Nat × List Nat)) :
    (((cache.foldl (fun m p => gatherEntry hash64_table p.1 p.2 m) m).lookup y).getD []) =
      ((m.lookup y).getD []) ++ refsJoin hash64_table cache y := by
  induction cache generalizing m with
  | nil => simp [refsJoin]
  | cons p rest ih =>
    rw [List.foldl_cons, ih, lookupD_gatherEntry]
    simp [refsJoin]

/-- The reverse-adjacency map's entry for `y` (empty when absent) is exactly
`refsJoin`. -/
theorem lookupD_gatherReferences (hash64_table : Nat → Option Nat)
    (cache : TagCache) (y : Nat) :
    (((gatherReferences hash64_table cache).lookup y).getD []) =
      refsJoin hash64_table cache y := by
  rw [gatherReferences, lookupD_gatherReferences_aux]
  simp

theorem gather_match_refsJoin (hash64_table : Nat → Option Nat)
    (cache : TagCache) (y : Nat) :
    (match (gatherReferences hash64_table cache).lookup y with
      | some refs => refs
      | none => []) = refsJoin hash64_table cache y := by
  have h := lookupD_gatherReferences hash64_table cache y
  cases hl : (gatherReferences hash64_table cache).lookup y with
  | none => rw [hl] at h; simpa using h.symm
  | some refs => rw [hl] at h; simpa using h

theorem refsJoin_nil (hash64_table : Nat → Option Nat) (y : Nat) :
    refsJoin hash64_table [] y = [] := rfl

theorem refsJoin_cons (hash64_table : Nat → Option Nat) (p : Nat × ScanResult)
    (rest : TagCache) (y : Nat) :
    refsJoin hash64_table (p :: rest) y =
      List.replicate (countRefs hash64_table p.2 y) p.1 ++ refsJoin hash64_table rest y := by
  simp [refsJoin]

/-- Pass 2 commutes with lookup: looking up `y` in the transformed cache
applies the reference update to the flat cache's entry for `y`. -/
theorem lookup_applyRefs (drc : List (Nat × List Nat)) (cache : TagCache) (y : Nat) :
    (cache.map (fun p =>
        (p.1, { p.2 with references :=
            match drc.lookup p.1 with
            | some refs => refs
            | none => p.2.references }))).lookup y =
      (cache.lookup y).map (fun v =>
        { v with references :=
            match drc.lookup y with
            | some refs => refs
            | none => v.references }) := by
  induction cache with
  | nil => simp
  | cons p rest ih =>
    obtain ⟨k, v⟩ := p
    simp only [List.map_cons]
    by_cases h : y = k
    · subst h
      rw [lookup_cons_if, if_pos rfl, lookup_cons_if, if_pos rfl]
      simp
    · rw [lookup_cons_if, if_neg h, lookup_cons_if, if_neg h, ih]

/-- For a flat cache, the transform's entry for `y` is the flat entry with its
reference list replaced by `refsJoin`. -/
theorem transform_lookup (hash64_table : Nat → Option Nat) (cache : TagCache)
    (hflat : FlatCache cache) (y : Nat) :
    (transform_tag_cache hash64_table cache).lookup y =
      (cache.lookup y).map
        (fun v => { v with references := refsJoin hash64_table cache y }) := by
  simp only [transform_tag_cache]
  rw [lookup_applyRefs]
  cases hl : cache.lookup y with
  | none => simp
  | some v =>
    have hv : v.references = [] := hflat (y, v) (mem_of_lookup_eq_some hl)
    simp only [Option.map_some']
    have := gather_match_refsJoin hash64_table cache y
    cases hg : (gatherReferences hash64_table cache).lookup y with
    | none =>
      rw [hg] at this
      simp only at this
      rw [← this, hv]
    | some refs =>
      rw [hg] at this
      simp only at this
      rw [← this]

theorem count_refsJoin_zero (hash64_table : Nat → Option Nat) (cache : TagCache)
    (y x : Nat) (hx : x ∉ cache.map Prod.fst) :
    (refsJoin hash64_table cache y).count x = 0 := by
  induction cache with
  | nil => simp [refsJoin_nil]
  | cons p rest ih =>
    rw [List.map_cons] at hx
    rw [refsJoin_cons, List.count_append, List.count_replicate]
    have h1 : ¬ p.1 = x := fun hc => hx (List.mem_cons.mpr (Or.inl hc.symm))
    have h2 : x ∉ rest.map Prod.fst := fun hc => hx (List.mem_cons.mpr (Or.inr hc))
    simp [h1, ih h2]

/-- With distinct keys, the number of occurrences of `x` in the transform's
reference list for `y` is exactly `x`'s number of reference sites for `y`. -/
theorem count_refsJoin (hash64_table : Nat → Option Nat) {cache : TagCache}
    (hnd : (cache.map Prod.fst).Nodup) {x : Nat} {vx : ScanResult}
    (hx : (x, vx) ∈ cache) (y : Nat) :
    (refsJoin hash64_table cache y).count x = countRefs hash64_table vx y := by
  induction cache with
  | nil => cases hx
  | cons p rest ih =>
    rw [List.map_cons, List.nodup_cons] at hnd
    rw [refsJoin_cons, List.count_append, List.count_replicate]
    rcases List.mem_cons.mp hx with heq | hmem
    · obtain rfl : p = (x, vx) := heq.symm
      simp [count_refsJoin_zero hash64_table rest y x hnd.1]
    · have hxk : x ∈ rest.map Prod.fst := List.mem_map.mpr ⟨(x, vx), hmem, rfl⟩
      have h1 : ¬ p.1 = x := fun hc => hnd.1 (hc ▸ hxk)
      simp [h1, ih hnd.2 hmem]

theorem mem_refsJoin (hash64_table : Nat → Option Nat) (cache : TagCache) (x y : Nat) :
    x ∈ refsJoin hash64_table cache y ↔
      ∃ vx, (x, vx) ∈ cache ∧ 0 < countRefs hash64_table vx y := by
  rw [refsJoin, List.mem_flatten]
  constructor
  · rintro ⟨s, hs, hxs⟩
    rw [List.mem_map] at hs
    obtain ⟨p, hp, rfl⟩ := hs
    rw [List.mem_replicate] at hxs
    obtain ⟨hn, rfl⟩ := hxs
    exact ⟨p.2, hp, Nat.pos_of_ne_zero hn⟩
  · rintro ⟨vx, hvx, hpos⟩
    refine ⟨List.replicate (countRefs hash64_table vx y) x,
      List.mem_map.mpr ⟨(x, vx), hvx, rfl⟩,
      List.mem_replicate.mpr ⟨Nat.pos_iff_ne_zero.mp hpos, rfl⟩⟩

theorem countRefs_pos_iff (hash64_table : Nat → Option Nat) (v : ScanResult) (y : Nat) :
    0 < countRefs hash64_table v y ↔ scanContains hash64_table v y := by
  rw [countRefs, scanContains, add_pos_iff, List.countP_pos_iff, List.countP_pos_iff]
  simp

/-! ## Claims about the reference-graph transform -/

/-- C1 as written fails on the code: in `cacheC1` the entry X = 1 appears in
entry Y = 2's reference list, yet Y's own forward scan (the flat cache's
entry for 2, `ScanResult.default`) contains no match equal to 1 — directly
or via Extended-Identifier resolution.  The reference list records the
entries that scan Y, not what Y scans. -/
theorem transform_forward_scan_counterexample :
    cacheC1.lookup 2 = some ScanResult.default ∧
    (transform_tag_cache h64none cacheC1).lookup 2 =
      some (ScanResult.mk [] [] [] [1]) ∧
    (1 : Nat) ∈ (ScanResult.mk [] [] [] [1]).references ∧
    ¬ scanContains h64none ScanResult.default 1 := by
  refine ⟨by decide, by decide, by decide, by decide⟩

/-- C1 (amended): for every flat Tag Cache with distinct keys, X appears in
entry Y's reference list after the transform iff X is an entry of the cache
whose forward scan (directly through a 32-bit Identifier match, or through a
resolvable Extended-Identifier match) contains a match equal to Y's
Identifier. -/
theorem transform_reference_mem_iff (hash64_table : Nat → Option Nat) (cache : TagCache)
    (hnd : (cache.map Prod.fst).Nodup) (hflat : FlatCache cache)
    (x y : Nat) (vy : ScanResult) (hy : (y, vy) ∈ cache) :
    (∃ vy', (transform_tag_cache hash64_table cache).lookup y = some vy' ∧
        x ∈ vy'.references) ↔
      ∃ vx, (x, vx) ∈ cache ∧ scanContains hash64_table vx y := by
  have hly : cache.lookup y = some vy := lookup_eq_some_of_mem_nodup hnd hy
  rw [transform_lookup hash64_table cache hflat y, hly]
  constructor
  · rintro ⟨vy', hv, hxm⟩
    simp only [Option.map_some', Option.some.injEq] at hv
    rw [← hv] at hxm
    have hxm2 : x ∈ refsJoin hash64_table cache y := hxm
    obtain ⟨vx, hvx, hpos⟩ := (mem_refsJoin hash64_table cache x y).mp hxm2
    exact ⟨vx, hvx, (countRefs_pos_iff hash64_table vx y).mp hpos⟩
  · rintro ⟨vx, hvx, hsc⟩
    refine ⟨_, rfl, ?_⟩
    show x ∈ refsJoin hash64_table cache y
    exact (mem_refsJoin hash64_table cache x y).mpr
      ⟨vx, hvx, (countRefs_pos_iff hash64_table vx y).mpr hsc⟩

/-- Witness for the amended C1 at `cacheC1`: 1 scans a match for 2, so 1
appears in 2's reference list. -/
theorem transform_reference_mem_iff_witness :
    ((cacheC1.map Prod.fst).Nodup ∧ FlatCache cacheC1 ∧
      (2, ScanResult.default) ∈ cacheC1) ∧
    ((∃ vy', (transform_tag_cache h64none cacheC1).lookup 2 = some vy' ∧
        1 ∈ vy'.references) ↔
      ∃ vx, (1, vx) ∈ cacheC1 ∧ scanContains h64none vx 2) :=
  ⟨⟨by decide, by decide, by decide⟩,
   transform_reference_mem_iff h64none cacheC1 (by decide) (by decide) 1 2
     ScanResult.default (by decide)⟩

/-- C3: with distinct keys, the multiplicity of X in Y's reference list after
the transform equals the number of 32-bit Identifier matches for Y in X's
scan result plus the number of Extended-Identifier matches in X's scan
result that resolve to Y (`countRefs`); duplicates are preserved and
unresolvable Extended-Identifier matches contribute nothing. -/
theorem transform_reference_count (hash64_table : Nat → Option Nat) (cache : TagCache)
    (hnd : (cache.map Prod.fst).Nodup) (hflat : FlatCache cache)
    (x y : Nat) (vx vy : ScanResult) (hx : (x, vx) ∈ cache) (hy : (y, vy) ∈ cache) :
    ∃ vy', (transform_tag_cache hash64_table cache).lookup y = some vy' ∧
      vy'.references.count x = countRefs hash64_table vx y := by
  have hly : cache.lookup y = some vy := lookup_eq_some_of_mem_nodup hnd hy
  rw [transform_lookup hash64_table cache hflat y, hly]
  refine ⟨_, rfl, ?_⟩
  show (refsJoin hash64_table cache y).count x = countRefs hash64_table vx y
  exact count_refsJoin hash64_table hnd hx y

/-- Witness for C3: the spec's example scenario.  Entry A (Identifier 1) and
entry B (Identifier 3) each contain one match for Identifier 2; after the
transform, entry 2's reference list holds each of them with multiplicity 1
(and, concretely, equals `[1, 3]` up to cache order). -/
theorem transform_reference_count_witness :
    ((cacheAB.map Prod.fst).Nodup ∧ FlatCache cacheAB ∧
      (1, (ScanResult.mk [⟨0, 2⟩] [] [] [])) ∈ cacheAB ∧
      (2, ScanResult.default) ∈ cacheAB) ∧
    (∃ vy', (transform_tag_cache h64none cacheAB).lookup 2 = some vy' ∧
      vy'.references.count 1 = countRefs h64none (ScanResult.mk [⟨0, 2⟩] [] [] []) 2) :=
  ⟨⟨by decide, by decide, by decide, by decide⟩,
   transform_reference_count h64none cacheAB (by decide) (by decide) 1 2
     (ScanResult.mk [⟨0, 2⟩] [] [] []) ScanResult.default (by decide) (by decide)⟩

/-- C6 as written fails on the code: an entry whose scan contains a match for
its own Identifier ends up in its own reference list — the transform does
not restrict reference lists to *other* entries. -/
theorem transform_self_reference_counterexample :
    (transform_tag_cache h64none cacheSelf).lookup 1 =
      some (ScanResult.mk [⟨0, 1⟩] [] [] [1]) ∧
    (1 : Nat) ∈ (ScanResult.mk [⟨0, 1⟩] [] [] [1]).references := by
  refine ⟨by decide, by decide⟩

/-- C6 (amended): after the transform of a flat cache, every element of an
entry's reference list is the Identifier of some entry of the cache whose
forward scan contains a match (directly, or via Extended-Identifier
resolution) for the list's owner; the owner's own Identifier may itself
occur, exactly when the owner references itself. -/
theorem transform_references_are_entries (hash64_table : Nat → Option Nat)
    (cache : TagCache) (hflat : FlatCache cache) (y : Nat) (vy' : ScanResult)
    (hy' : (y, vy') ∈ transform_tag_cache hash64_table cache) :
    ∀ x ∈ vy'.references, ∃ vx, (x, vx) ∈ cache ∧ scanContains hash64_table vx y := by
  intro x hx
  simp only [transform_tag_cache, List.mem_map] at hy'
  obtain ⟨p, hp, hpe⟩ := hy'
  obtain ⟨hp1, hp2⟩ := Prod.mk.inj hpe
  rw [← hp2] at hx
  simp only at hx
  have hpr : p.2.references = [] := hflat p hp
  rw [hpr] at hx
  rw [hp1, gather_match_refsJoin] at hx
  obtain ⟨vx, hvx, hpos⟩ := (mem_refsJoin hash64_table cache x y).mp hx
  exact ⟨vx, hvx, (countRefs_pos_iff hash64_table vx y).mp hpos⟩

/-- Witness for the amended C6 at `cacheSelf`: the self-reference 1 in entry
1's list is itself a cache entry, and its scan forward-references entry 1. -/
theorem transform_references_are_entries_witness :
    (FlatCache cacheSelf ∧
      (1, ScanResult.mk [⟨0, 1⟩] [] [] [1]) ∈ transform_tag_cache h64none cacheSelf ∧
      (1 : Nat) ∈ (ScanResult.mk [⟨0, 1⟩] [] [] [1]).references) ∧
    (∃ vx, (1, vx) ∈ cacheSelf ∧ scanContains h64none vx 1) :=
  ⟨⟨by decide, by decide, by decide⟩,
   transform_references_are_entries h64none cacheSelf (by decide) 1
     (ScanResult.mk [⟨0, 1⟩] [] [] [1]) (by decide) 1 (by decide)⟩

/-- C7: the transform changes only reference lists.  For every flat cache the
enriched cache has exactly the same keys in the same positions, every
entry's three match lists are unchanged, and its reference list equals the
reverse-adjacency map's entry for its own Identifier (empty when absent). -/
theorem transform_frame (hash64_table : Nat → Option Nat) (cache : TagCache)
    (hnd : (cache.map Prod.fst).Nodup) (hflat : FlatCache cache) :
    ((transform_tag_cache hash64_table cache).map Prod.fst = cache.map Prod.fst) ∧
    ∀ y vy, (y, vy) ∈ cache →
      ∃ vy', (transform_tag_cache hash64_table cache).lookup y = some vy' ∧
        vy'.file_hashes = vy.file_hashes ∧
        vy'.file_hashes64 = vy.file_hashes64 ∧
        vy'.string_hashes = vy.string_hashes ∧
        vy'.references = (match (gatherReferences hash64_table cache).lookup y with
          | some refs => refs
          | none => []) := by
  constructor
  · simp [transform_tag_cache, List.map_map, Function.comp]
  · intro y vy hy
    have hly : cache.lookup y = some vy := lookup_eq_some_of_mem_nodup hnd hy
    rw [transform_lookup hash64_table cache hflat y, hly]
    refine ⟨_, rfl, rfl, rfl, rfl, ?_⟩
    show refsJoin hash64_table cache y = _
    rw [gather_match_refsJoin]

/-- Witness for C7 at `cacheC1`. -/
theorem transform_frame_witness :
    ((cacheC1.map Prod.fst).Nodup ∧ FlatCache cacheC1) ∧
    ((transform_tag_cache h64none cacheC1).map Prod.fst = cacheC1.map Prod.fst ∧
    ∀ y vy, (y, vy) ∈ cacheC1 →
      ∃ vy', (transform_tag_cache h64none cacheC1).lookup y = some vy' ∧
        vy'.file_hashes = vy.file_hashes ∧
        vy'.file_hashes64 = vy.file_hashes64 ∧
        vy'.string_hashes = vy.string_hashes ∧
        vy'.references = (match (gatherReferences h64none cacheC1).lookup y with
          | some refs => refs
          | none => [])) :=
  ⟨⟨by decide, by decide⟩,
   transform_frame h64none cacheC1 (by decide) (by decide)⟩

/-- C10: inside each of the three match lists produced by the Entry Scanner,
the recorded byte offsets are strictly increasing (ascending buffer order,
no repeated offset within one list). -/
theorem scan_file_offsets_increasing (ipf : Nat → Bool) (ctx : ScannerContext)
    (data : List Nat) :
    ((scan_file ipf ctx data).file_hashes.Pairwise (fun a b => a.offset < b.offset)) ∧
    ((scan_file ipf ctx data).file_hashes64.Pairwise (fun a b => a.offset < b.offset)) ∧
    ((scan_file ipf ctx data).string_hashes.Pairwise (fun a b => a.offset < b.offset)) := by
  rw [scan_file_file_hashes, scan_file_file_hashes64, scan_file_string_hashes]
  exact ⟨scanPass_sorted 4 (by norm_num) _ data,
    scanPass_sorted 8 (by norm_num) _ data,
    scanPass_sorted 4 (by norm_num) _ data⟩

/-! ## Store/load round trip -/

theorem parseLE_encLE (k : Nat) (n : Nat) (hn : n < 256 ^ k) (rest : List Nat) :
    parseLE k (encLE k n ++ rest) = some (n, rest) := by
  induction k generalizing n with
  | zero =>
    have h0 : n = 0 := by simpa using hn
    subst h0
    simp [encLE, parseLE]
  | succ k ih =>
    have hd : n / 256 < 256 ^ k := by
      rw [Nat.div_lt_iff_lt_mul (by norm_num : 0 < 256)]
      calc n < 256 ^ (k + 1) := hn
        _ = 256 ^ k * 256 := by rw [pow_succ]
    rw [encLE, List.cons_append]
    simp only [parseLE]
    rw [ih (n / 256) hd]
    simp [Nat.mod_add_div]

theorem parseScannedHash_enc (w : Nat) (t : ScannedHash) (h : WFScannedHash w t)
    (rest : List Nat) :
    parseScannedHash w (encScannedHash w t ++ rest) = some (t, rest) := by
  obtain ⟨h1, h2⟩ := h
  have h1' : t.offset < 256 ^ 8 := by
    have : (256 : Nat) ^ 8 = 2 ^ 64 := by norm_num
    rw [this]
    exact h1
  rw [encScannedHash, List.append_assoc]
  simp only [parseScannedHash]
  rw [parseLE_encLE 8 t.offset h1']
  simp only []
  rw [parseLE_encLE w t.hash h2]

theorem parseCount_enc {α : Type} (parseElem : List Nat → Option (α × List Nat))
    (enc : α → List Nat) (l : List α)
    (helem : ∀ a ∈ l, ∀ rest, parseElem (enc a ++ rest) = some (a, rest))
    (rest : List Nat) :
    parseCount parseElem l.length ((l.map enc).flatten ++ rest) = some (l, rest) := by
  induction l with
  | nil => simp [parseCount]
  | cons a l ih =>
    simp only [List.map_cons, List.flatten_cons, List.length_cons, List.append_assoc]
    simp only [parseCount]
    rw [helem a (List.mem_cons_self a l) ((l.map enc).flatten ++ rest)]
    simp only []
    rw [ih (fun b hb rest => helem b (List.mem_cons_of_mem a hb) rest)]

theorem parseList_encList {α : Type} (parseElem : List Nat → Option (α × List Nat))
    (enc : α → List Nat) (l : List α) (hlen : l.length < 2 ^ 64)
    (helem : ∀ a ∈ l, ∀ rest, parseElem (enc a ++ rest) = some (a, rest))
    (rest : List Nat) :
    parseList parseElem (encList enc l ++ rest) = some (l, rest) := by
  have hlen' : l.length < 256 ^ 8 := by
    have : (256 : Nat) ^ 8 = 2 ^ 64 := by norm_num
    rw [this]
    exact hlen
  rw [encList, List.append_assoc]
  simp only [parseList]
  rw [parseLE_encLE 8 l.length hlen']
  exact parseCount_enc parseElem enc l helem rest

theorem parseScanResult_enc (v : ScanResult) (h : WFScanResult v) (rest : List Nat) :
    parseScanResult (encScanResult v ++ rest) = some (v, rest) := by
  obtain ⟨hfh, hfh64, hsh, hrefs, l1, l2, l3, l4⟩ := h
  rw [encScanResult, List.append_assoc, List.append_assoc, List.append_assoc]
  simp only [parseScanResult]
  rw [parseList_encList (parseScannedHash 4) (encScannedHash 4) v.file_hashes l1
      (fun a ha rest => parseScannedHash_enc 4 a (hfh a ha) rest)]
  simp only []
  rw [parseList_encList (parseScannedHash 8) (encScannedHash 8) v.file_hashes64 l2
      (fun a ha rest => parseScannedHash_enc 8 a (hfh64 a ha) rest)]
  simp only []
  rw [parseList_encList (parseScannedHash 4) (encScannedHash 4) v.string_hashes l3
      (fun a ha rest => parseScannedHash_enc 4 a (hsh a ha) rest)]
  simp only []
  rw [parseList_encList (parseLE 4) (encLE 4) v.references l4
      (fun a ha rest => parseLE_encLE 4 a (hrefs a ha) rest)]

theorem parseEntry_enc (p : Nat × ScanResult) (hk : p.1 < 256 ^ 4)
    (hv : WFScanResult p.2) (rest : List Nat) :
    parseEntry (encEntry p ++ rest) = some (p, rest) := by
  rw [encEntry, List.append_assoc]
  simp only [parseEntry]
  rw [parseLE_encLE 4 p.1 hk]
  simp only []
  rw [parseScanResult_enc p.2 hv rest]

/-- Full round trip: reloading the stored form of a well-formed cache
reproduces it exactly. -/
theorem load_store_tag_cache (cache : TagCache) (hwf : WFTagCache cache) :
    load_tag_cache_bytes (store_tag_cache_bytes cache) = some cache := by
  rw [store_tag_cache_bytes, load_tag_cache_bytes]
  simp only [zstdCompress, zstdDecompress]
  rw [show encList encEntry cache = encList encEntry cache ++ [] from
      (List.append_nil _).symm,
    parseList_encList parseEntry encEntry cache hwf.1
      (fun p hp rest => parseEntry_enc p (hwf.2 p hp).1 (hwf.2 p hp).2 rest) []]

/-- C2: for every well-formed enriched Tag Cache, loading the stored form
(bincode serialization wrapped in zstd compression, as modelled above)
yields, for every Identifier key, the same three match lists in the same
order and the same reference list contents as a multiset. -/
theorem store_load_roundtrip (cache : TagCache) (hwf : WFTagCache cache) :
    ∃ cache', load_tag_cache_bytes (store_tag_cache_bytes cache) = some cache' ∧
      ∀ y vy, cache.lookup y = some vy →
        ∃ vy', cache'.lookup y = some vy' ∧
          vy'.file_hashes = vy.file_hashes ∧
          vy'.file_hashes64 = vy.file_hashes64 ∧
          vy'.string_hashes = vy.string_hashes ∧
          vy'.references.Perm vy.references := by
  refine ⟨cache, load_store_tag_cache cache hwf, ?_⟩
  intro y vy hy
  exact ⟨vy, hy, rfl, rfl, rfl, List.Perm.refl _⟩

/-- Witness for C2 at the concrete cache `cacheC1`. -/
theorem store_load_roundtrip_witness :
    WFTagCache cacheC1 ∧
    (∃ cache', load_tag_cache_bytes (store_tag_cache_bytes cacheC1) = some cache' ∧
      ∀ y vy, cacheC1.lookup y = some vy →
        ∃ vy', cache'.lookup y = some vy' ∧
          vy'.file_hashes = vy.file_hashes ∧
          vy'.file_hashes64 = vy.file_hashes64 ∧
          vy'.string_hashes = vy.string_hashes ∧
          vy'.references.Perm vy.references) :=
  ⟨by decide, store_load_roundtrip cacheC1 (by decide)⟩

/-! ## Claims about load-time error handling and the status lifecycle -/

/-- C8: a cache-artifact failure — missing file, zstd decoder failure, or
deserialization failure — is never surfaced as an error: `load_tag_cache`
falls through to the full rebuild; and when the cache file is absent, the
next (first) recorded Scan Status is `CreatingScanner`, the spec's
CreatingContext. -/
theorem load_cache_failure_falls_through (env : LoadEnv)
    (hfail : env.cacheFile = none ∨
      ∃ bytes, env.cacheFile = some bytes ∧
        (env.zstdOk = false ∨ load_tag_cache_bytes bytes = none)) :
    (∃ trace0, load_tag_cache env = rebuild_tag_cache env trace0) ∧
    (env.cacheFile = none →
      ∃ rest, (load_tag_cache env).1 = ScanStatus.CreatingScanner :: rest) := by
  constructor
  · rcases hfail with hnone | ⟨bytes, hsome, hbad⟩
    · exact ⟨[], by simp only [load_tag_cache, hnone]⟩
    · rcases hbad with hz | hp
      · refine ⟨[ScanStatus.LoadingCache], ?_⟩
        simp only [load_tag_cache, hsome, hz]
        simp
      · refine ⟨[ScanStatus.LoadingCache], ?_⟩
        simp only [load_tag_cache, hsome]
        cases hzv : env.zstdOk
        · simp
        · simp [hp]
  · intro hnone
    simp only [load_tag_cache, hnone]
    exact ⟨_, rfl⟩

/-- Witness for C8: a missing cache file falls through to the rebuild, whose
first recorded status is `CreatingScanner`. -/
theorem load_cache_failure_falls_through_witness :
    (envOk.cacheFile = none ∨
      ∃ bytes, envOk.cacheFile = some bytes ∧
        (envOk.zstdOk = false ∨ load_tag_cache_bytes bytes = none)) ∧
    ((∃ trace0, load_tag_cache envOk = rebuild_tag_cache envOk trace0) ∧
     (envOk.cacheFile = none →
        ∃ rest, (load_tag_cache envOk).1 = ScanStatus.CreatingScanner :: rest)) :=
  ⟨Or.inl rfl, load_cache_failure_falls_through envOk (Or.inl rfl)⟩

/-- C9 as written fails on the code: a failed store does not reset the status
to `None` (Idle) — the unwrapped `File::create`/`write_all` panic leaves the
run with `WritingCache` as the last recorded status and no cache is
returned. -/
theorem failed_store_status_counterexample :
    (load_tag_cache envStoreFail).1.getLast? = some ScanStatus.WritingCache ∧
    (load_tag_cache envStoreFail).2 = none ∧
    ScanStatus.WritingCache ≠ ScanStatus.None := by
  refine ⟨by decide, by decide, by decide⟩

/-- C9 (amended): on every path on which `load_tag_cache` returns normally —
a successful load, or a full rebuild whose store succeeds — the last
recorded Scan Status is `None` (the spec's Idle).  A failed store panics
instead of returning, leaving `WritingCache` recorded. -/
theorem status_idle_on_return (env : LoadEnv) (cache : TagCache)
    (h : (load_tag_cache env).2 = some cache) :
    (load_tag_cache env).1.getLast? = some ScanStatus.None := by
  have hreb : ∀ t, (rebuild_tag_cache env t).2 = some cache →
      (rebuild_tag_cache env t).1.getLast? = some ScanStatus.None := by
    intro t ht
    simp only [rebuild_tag_cache] at ht ⊢
    by_cases hst : env.storeOk = true
    · rw [if_pos hst]
      simp only [List.getLast?_append]
      simp
    · rw [if_neg hst] at ht
      cases ht
  cases hcf : env.cacheFile with
  | none =>
    simp only [load_tag_cache, hcf] at h ⊢
    exact hreb [] h
  | some bytes =>
    simp only [load_tag_cache, hcf] at h ⊢
    by_cases hz : env.zstdOk = true
    · rw [if_pos hz] at h ⊢
      revert h
      cases hp : load_tag_cache_bytes bytes with
      | none =>
        intro h
        exact hreb _ h
      | some c =>
        intro _
        rfl
    · rw [if_neg hz] at h ⊢
      exact hreb _ h

/-- Witness for the amended C9: a successful rebuild-and-store run ends with
status `None`. -/
theorem status_idle_on_return_witness :
    (load_tag_cache envOk).2 = some (transform_tag_cache envOk.hash64_table []) ∧
    (load_tag_cache envOk).1.getLast? = some ScanStatus.None :=
  ⟨by decide,
   status_idle_on_return envOk (transform_tag_cache envOk.hash64_table []) (by decide)⟩

end Quicktag
